import Mathlib

/-!
Verification of the `DependencyTracker` core (coalib/core/DependencyTracker.py).

The tracker's adjacency structure is a Python `dict` mapping a dependency to
the `set` of its dependants.  We embed it as an association list
`List (Nat × Finset Nat)`: list order models the dict's insertion order, and
every reachable tracker has pairwise-distinct keys (`goodKeys` below).
Task identities are opaque hashable values in the source; we use `Nat`.
-/

namespace DependencyTracker

/-- The adjacency structure `self._dependency_dict`: a mapping
dependency ↦ set of dependants, embedded as an association list. -/
abbrev Tracker := List (Nat × Finset Nat)

/-- `DependencyTracker.add`: ensure the key exists, then add the dependant
to its set (`self._dependency_dict[dependency].add(dependant)`). -/
def add (tracker : Tracker) (dependency dependant : Nat) : Tracker :=
  if tracker.any (fun p => p.1 = dependency) then
    tracker.map (fun p =>
      if p.1 = dependency then (p.1, insert dependant p.2) else p)
  else
    tracker ++ [(dependency, {dependant})]

/-- First loop of `DependencyTracker.resolve`: remove `dependency` from every
dependant-set that contains it, and delete any key whose set became empty. -/
def purge (tracker : Tracker) (dependency : Nat) : Tracker :=
  tracker.filterMap (fun p =>
    if dependency ∈ p.2 then
      if p.2.erase dependency = ∅ then none
      else some (p.1, p.2.erase dependency)
    else some p)

/-- `tracker.any (fun p => t ∈ p.2)` as a definition: does `t` occur as a
dependant in some entry of the structure? -/
def inSetsB (tracker : Tracker) (t : Nat) : Bool :=
  tracker.any (fun p => t ∈ p.2)

/-- `DependencyTracker.resolve`: purge the completed `dependency` from all
dependant-sets, pop its own entry (`dict.pop(dependency, frozenset())`), and
return the popped dependants that occur in no remaining dependant-set,
together with the resulting structure. -/
def resolve (tracker : Tracker) (dependency : Nat) : Finset Nat × Tracker :=
  let t1 := purge tracker dependency
  let captured := (t1.lookup dependency).getD ∅
  let t2 := t1.filter (fun p => p.1 ≠ dependency)
  (captured.filter (fun t => inSetsB t2 t = false), t2)

/-- `DependencyTracker.all_dependencies_resolved`:
`len(self._dependency_dict) == 0`. -/
def all_dependencies_resolved (tracker : Tracker) : Bool :=
  tracker.isEmpty

/-- An operation issued by the tracker's caller. -/
inductive Op where
  | add (dependency dependant : Nat)
  | resolve (dependency : Nat)
deriving DecidableEq, Repr

/-- Apply one caller operation to a tracker state. -/
def applyOp (tracker : Tracker) : Op → Tracker
  | Op.add d t => add tracker d t
  | Op.resolve d => (resolve tracker d).2

/-- Run a sequence of caller operations from a given state. -/
def runFrom (tracker : Tracker) : List Op → Tracker
  | [] => tracker
  | op :: ops => runFrom (applyOp tracker op) ops

/-- Run a sequence of caller operations on a fresh tracker. -/
def run (ops : List Op) : Tracker := runFrom [] ops

/-- The dependencies registered by the `add` calls of a trace. -/
def registeredDeps (ops : List Op) : List Nat :=
  ops.filterMap (fun op =>
    match op with
    | Op.add d _ => some d
    | Op.resolve _ => none)

/-- The identities passed to `resolve` calls of a trace. -/
def resolvedIds (ops : List Op) : List Nat :=
  ops.filterMap (fun op =>
    match op with
    | Op.add _ _ => none
    | Op.resolve d => some d)

/-- The dependant-set stored under a key (empty if the key is absent),
`self._dependency_dict.get(node, frozenset())`. -/
def depsOf (tracker : Tracker) (node : Nat) : Finset Nat :=
  (tracker.lookup node).getD ∅

/-- Well-formedness of the adjacency structure: keys are pairwise distinct,
as they are in a Python dict. -/
abbrev goodKeys (tracker : Tracker) : Prop :=
  (tracker.map Prod.fst).Nodup

/-- There is an edge dependency → dependant recorded in the structure. -/
def edgeMem (tracker : Tracker) (dependency dependant : Nat) : Prop :=
  ∃ s, (dependency, s) ∈ tracker ∧ dependant ∈ s

/-- The combined effect of one `resolve` call on the adjacency structure
(purge of the resolved identity from all dependant-sets followed by popping
its own entry), expressed as a single pass. -/
def step (tracker : Tracker) (d : Nat) : Tracker :=
  tracker.filterMap (fun p =>
    if p.1 = d then none
    else if d ∈ p.2 then
      if p.2.erase d = ∅ then none else some (p.1, p.2.erase d)
    else some p)

/-- The per-entry transformation a single `resolve d` call applies to an
adjacency entry (`step` is its pointwise lifting). -/
def stepFn (d : Nat) (p : Nat × Finset Nat) : Option (Nat × Finset Nat) :=
  if p.1 = d then none
  else if d ∈ p.2 then
    if p.2.erase d = ∅ then none else some (p.1, p.2.erase d)
  else some p

/-- Build a tracker from a sequence of `add(dependency, dependant)` calls. -/
def addAll (ps : List (Nat × Nat)) : Tracker :=
  ps.foldl (fun tracker p => add tracker p.1 p.2) []

/-- Modelled from the spec: `get_dependants(node)` of the source (not under
src/) returns the set of nodes that currently depend on `node`, i.e. the
dependant-set of the direct adjacency entry, empty for unknown nodes. -/
def get_dependants (tracker : Tracker) (node : Nat) : Finset Nat :=
  depsOf tracker node

/-- Modelled from the spec: `get_dependencies(node)` of the source (not under
src/) returns the set of nodes `node` currently depends on, derived by
scanning all entries whose dependant-set contains `node` and collecting
their keys, empty for unknown nodes. -/
def get_dependencies (tracker : Tracker) (node : Nat) : Finset Nat :=
  ((tracker.filter (fun p => node ∈ p.2)).map Prod.fst).toFinset

/-- All node identities occurring in the structure: keys first, then every
member of a dependant-set.  Bounds the depth of the traversal below. -/
def nodesOf (tracker : Tracker) : List Nat :=
  tracker.map Prod.fst ++
    tracker.foldr (fun p acc => p.2.sort (· ≤ ·) ++ acc) []

/-- The neighbor-lookup function passed to the traversal by
`check_circular_dependencies`:
`lambda node: self._dependency_dict.get(node, frozenset())`. -/
def neighList (tracker : Tracker) (node : Nat) : List Nat :=
  (depsOf tracker node).sort (· ≤ ·)

/-- Modelled from the spec: the depth-first walk of `traverse_graph` from
`coalib.core.Graphs` (not under src/).  `path` is the set of nodes on the
current path, `processed` the memoized fully-processed nodes (shared across
roots), `pending` the nodes still to visit at the current level.  Revisiting
a node on the current path fails with that node (the CircularDependencyError);
otherwise the fully-processed set is returned.  `fuel` bounds the recursion
depth; callers pass more fuel than there are nodes, so it never runs out
(`none` is never returned, proved below). -/
def visitAux (neigh : Nat → List Nat) (fuel : Nat) (path processed pending : List Nat) :
    Option (Except Nat (List Nat)) :=
  match pending with
  | [] => some (Except.ok processed)
  | m :: ms =>
    if m ∈ path then some (Except.error m)
    else if m ∈ processed then visitAux neigh fuel path processed ms
    else
      match fuel with
      | 0 => none
      | f + 1 =>
        match visitAux neigh f (m :: path) processed (neigh m) with
        | none => none
        | some (Except.error e) => some (Except.error e)
        | some (Except.ok proc) => visitAux neigh (f + 1) path (m :: proc) ms
termination_by (fuel, pending.length)

/-- Modelled from the spec: `traverse_graph(roots, neigh)` performs the
depth-first walk from every root with the processed set shared across
roots. -/
def traverse_graph (roots : List Nat) (neigh : Nat → List Nat) (fuel : Nat) :
    Option (Except Nat (List Nat)) :=
  visitAux neigh fuel [] [] roots

/-- `DependencyTracker.check_circular_dependencies`: traverse from all keys
with the dict-lookup neighbor function.  `Except.error e` models raising
`CircularDependencyError` at node `e`; `Except.ok` models a normal return. -/
def check_circular_dependencies (tracker : Tracker) : Option (Except Nat (List Nat)) :=
  traverse_graph (tracker.map Prod.fst) (neighList tracker)
    ((nodesOf tracker).length + 1)

/-! ## Structural lemmas -/

theorem purge_cons (q : Nat × Finset Nat) (rest : Tracker) (d : Nat) :
    purge (q :: rest) d =
      if d ∈ q.2 then
        if q.2.erase d = ∅ then purge rest d
        else (q.1, q.2.erase d) :: purge rest d
      else q :: purge rest d := by
  simp only [purge, List.filterMap_cons]
  by_cases hd : d ∈ q.2
  · rw [if_pos hd, if_pos hd]
    by_cases he : q.2.erase d = ∅
    · rw [if_pos he, if_pos he]
    · rw [if_neg he, if_neg he]
  · rw [if_neg hd, if_neg hd]

theorem step_cons (q : Nat × Finset Nat) (rest : Tracker) (d : Nat) :
    step (q :: rest) d =
      if q.1 = d then step rest d
      else
        if d ∈ q.2 then
          if q.2.erase d = ∅ then step rest d
          else (q.1, q.2.erase d) :: step rest d
        else q :: step rest d := by
  simp only [step, List.filterMap_cons]
  by_cases hk : q.1 = d
  · rw [if_pos hk, if_pos hk]
  · rw [if_neg hk, if_neg hk]
    by_cases hd : d ∈ q.2
    · rw [if_pos hd, if_pos hd]
      by_cases he : q.2.erase d = ∅
      · rw [if_pos he, if_pos he]
      · rw [if_neg he, if_neg he]
    · rw [if_neg hd, if_neg hd]

theorem resolve_snd_def (tracker : Tracker) (d : Nat) :
    (resolve tracker d).2 = (purge tracker d).filter (fun p => p.1 ≠ d) := rfl

theorem resolve_snd_eq (tracker : Tracker) (d : Nat) :
    (resolve tracker d).2 = step tracker d := by
  rw [resolve_snd_def]
  induction tracker with
  | nil => rfl
  | cons q rest ih =>
    rw [purge_cons, step_cons]
    by_cases hk : q.1 = d <;> by_cases hd : d ∈ q.2 <;>
      by_cases he : q.2.erase d = ∅ <;>
        simp [hk, hd, he, List.filter_cons] <;> simpa using ih

theorem not_mem_of_mem_purge {tracker : Tracker} {d : Nat} {p : Nat × Finset Nat}
    (h : p ∈ purge tracker d) : d ∉ p.2 := by
  induction tracker with
  | nil => simp [purge] at h
  | cons q rest ih =>
    rw [purge_cons] at h
    by_cases hd : d ∈ q.2
    · rw [if_pos hd] at h
      by_cases he : q.2.erase d = ∅
      · rw [if_pos he] at h; exact ih h
      · rw [if_neg he] at h
        rcases List.mem_cons.mp h with h1 | h1
        · subst h1; exact Finset.not_mem_erase d q.2
        · exact ih h1
    · rw [if_neg hd] at h
      rcases List.mem_cons.mp h with h1 | h1
      · subst h1; exact hd
      · exact ih h1

theorem mem_step {tracker : Tracker} {d : Nat} {p : Nat × Finset Nat}
    (h : p ∈ step tracker d) :
    p.1 ≠ d ∧ d ∉ p.2 ∧
      ∃ q, q ∈ tracker ∧ q.1 = p.1 ∧ p.2 ⊆ q.2 ∧
        (d ∈ q.2 → p.2 = q.2.erase d ∧ q.2.erase d ≠ ∅) ∧
        (d ∉ q.2 → p.2 = q.2) := by
  induction tracker with
  | nil => simp [step] at h
  | cons q rest ih =>
    rw [step_cons] at h
    by_cases hk : q.1 = d
    · rw [if_pos hk] at h
      obtain ⟨h1, h2, r, hr, hr1, hr2, hr3, hr4⟩ := ih h
      exact ⟨h1, h2, r, List.mem_cons_of_mem q hr, hr1, hr2, hr3, hr4⟩
    · rw [if_neg hk] at h
      by_cases hd : d ∈ q.2
      · rw [if_pos hd] at h
        by_cases he : q.2.erase d = ∅
        · rw [if_pos he] at h
          obtain ⟨h1, h2, r, hr, hr1, hr2, hr3, hr4⟩ := ih h
          exact ⟨h1, h2, r, List.mem_cons_of_mem q hr, hr1, hr2, hr3, hr4⟩
        · rw [if_neg he] at h
          rcases List.mem_cons.mp h with h1 | h1
          · subst h1
            refine ⟨hk, Finset.not_mem_erase d q.2, q, List.mem_cons_self q rest, rfl,
              Finset.erase_subset d q.2, fun _ => ⟨rfl, he⟩, fun hnd => absurd hd hnd⟩
          · obtain ⟨g1, g2, r, hr, hr1, hr2, hr3, hr4⟩ := ih h1
            exact ⟨g1, g2, r, List.mem_cons_of_mem q hr, hr1, hr2, hr3, hr4⟩
      · rw [if_neg hd] at h
        rcases List.mem_cons.mp h with h1 | h1
        · subst h1
          exact ⟨hk, hd, p, List.mem_cons_self p rest, rfl, Finset.Subset.refl _,
            fun hmem => absurd hmem hd, fun _ => rfl⟩
        · obtain ⟨g1, g2, r, hr, hr1, hr2, hr3, hr4⟩ := ih h1
          exact ⟨g1, g2, r, List.mem_cons_of_mem q hr, hr1, hr2, hr3, hr4⟩

theorem purge_eq_self {tracker : Tracker} {d : Nat}
    (h : ∀ p ∈ tracker, d ∉ p.2) : purge tracker d = tracker := by
  induction tracker with
  | nil => rfl
  | cons q rest ih =>
    rw [purge_cons, if_neg (h q (List.mem_cons_self q rest))]
    rw [ih fun p hp => h p (List.mem_cons_of_mem q hp)]

theorem lookup_eq_none_of_not_key {tracker : Tracker} {d : Nat}
    (h : ∀ p ∈ tracker, p.1 ≠ d) : tracker.lookup d = none := by
  induction tracker with
  | nil => rfl
  | cons q rest ih =>
    obtain ⟨k, v⟩ := q
    have hk : k ≠ d := h (k, v) (List.mem_cons_self _ rest)
    have hbeq : (d == k) = false := beq_eq_false_iff_ne.mpr fun hdk => hk hdk.symm
    rw [List.lookup, hbeq]
    exact ih fun p hp => h p (List.mem_cons_of_mem _ hp)

theorem mem_of_lookup_eq_some {tracker : Tracker} {d : Nat} {s : Finset Nat}
    (h : tracker.lookup d = some s) : (d, s) ∈ tracker := by
  induction tracker with
  | nil => simp [List.lookup] at h
  | cons q rest ih =>
    obtain ⟨k, v⟩ := q
    by_cases hdk : d = k
    · subst hdk
      rw [List.lookup, beq_self_eq_true] at h
      obtain rfl : v = s := by simpa using h
      exact List.mem_cons_self _ rest
    · rw [List.lookup, beq_eq_false_iff_ne.mpr hdk] at h
      exact List.mem_cons_of_mem _ (ih h)

theorem mem_purge_key {tracker : Tracker} {d : Nat} {p : Nat × Finset Nat}
    (h : p ∈ purge tracker d) : p.1 ∈ tracker.map Prod.fst := by
  induction tracker with
  | nil => simp [purge] at h
  | cons q rest ih =>
    rw [purge_cons] at h
    by_cases hd : d ∈ q.2
    · rw [if_pos hd] at h
      by_cases he : q.2.erase d = ∅
      · rw [if_pos he] at h
        exact List.mem_cons_of_mem q.1 (ih h)
      · rw [if_neg he] at h
        rcases List.mem_cons.mp h with h1 | h1
        · rw [h1]; exact List.mem_cons_self q.1 _
        · exact List.mem_cons_of_mem q.1 (ih h1)
    · rw [if_neg hd] at h
      rcases List.mem_cons.mp h with h1 | h1
      · rw [h1]; exact List.mem_cons_self q.1 _
      · exact List.mem_cons_of_mem q.1 (ih h1)

theorem goodKeys_unique {tracker : Tracker} (h : goodKeys tracker) {k : Nat}
    {s s' : Finset Nat} (h1 : (k, s) ∈ tracker) (h2 : (k, s') ∈ tracker) :
    s = s' := by
  induction tracker with
  | nil => simp at h1
  | cons q rest ih =>
    have h' : (q.1 :: rest.map Prod.fst).Nodup := h
    obtain ⟨hq, hrest⟩ := List.nodup_cons.mp h'
    rcases List.mem_cons.mp h1 with e1 | e1 <;> rcases List.mem_cons.mp h2 with e2 | e2
    · rw [← e2] at e1
      exact congrArg Prod.snd e1
    · exact absurd (List.mem_map.mpr ⟨(k, s'), e2, by rw [← e1]⟩) hq
    · exact absurd (List.mem_map.mpr ⟨(k, s), e1, by rw [← e2]⟩) hq
    · exact ih hrest e1 e2

theorem lookup_purge {tracker : Tracker} {d : Nat} (h : goodKeys tracker) :
    ((purge tracker d).lookup d).getD ∅ = (depsOf tracker d).erase d := by
  induction tracker with
  | nil => simp [purge, depsOf, List.lookup]
  | cons q rest ih =>
    obtain ⟨k, v⟩ := q
    have h' : (k :: rest.map Prod.fst).Nodup := h
    obtain ⟨hk, hrest⟩ := List.nodup_cons.mp h'
    by_cases hdk : d = k
    · subst hdk
      have hdeps : depsOf ((d, v) :: rest) d = v := by
        simp [depsOf, List.lookup]
      rw [hdeps, purge_cons]
      by_cases hd : d ∈ v
      · rw [if_pos hd]
        by_cases he : v.erase d = ∅
        · rw [if_pos he, he]
          have : (purge rest d).lookup d = none :=
            lookup_eq_none_of_not_key fun p hp hpd =>
              hk (hpd ▸ mem_purge_key hp)
          simp [this]
        · rw [if_neg he]
          simp [List.lookup]
      · rw [if_neg hd, Finset.erase_eq_of_not_mem hd]
        simp [List.lookup]
    · have hbeq : (d == k) = false := beq_eq_false_iff_ne.mpr hdk
      have hdeps : depsOf ((k, v) :: rest) d = depsOf rest d := by
        simp [depsOf, List.lookup, hbeq]
      rw [hdeps, purge_cons]
      by_cases hd : d ∈ v
      · rw [if_pos hd]
        by_cases he : v.erase d = ∅
        · rw [if_pos he]
          exact ih hrest
        · rw [if_neg he]
          rw [List.lookup, hbeq]
          exact ih hrest
      · rw [if_neg hd]
        rw [List.lookup, hbeq]
        exact ih hrest

theorem resolve_fst_def (tracker : Tracker) (d : Nat) :
    (resolve tracker d).1 =
      (((purge tracker d).lookup d).getD ∅).filter
        (fun t => inSetsB ((resolve tracker d).2) t = false) := rfl

theorem resolve_def (tracker : Tracker) (d : Nat) :
    resolve tracker d =
      ((((purge tracker d).lookup d).getD ∅).filter
        (fun t => inSetsB ((purge tracker d).filter (fun p => p.1 ≠ d)) t = false),
       (purge tracker d).filter (fun p => p.1 ≠ d)) := rfl

theorem inSetsB_iff {tracker : Tracker} {t : Nat} :
    inSetsB tracker t = true ↔ ∃ p, p ∈ tracker ∧ t ∈ p.2 := by
  simp [inSetsB, List.any_eq_true]

theorem map_eq_self_of_mem {α : Type} {f : α → α} {l : List α}
    (h : ∀ a ∈ l, f a = a) : l.map f = l := by
  induction l with
  | nil => rfl
  | cons a t ih =>
    rw [List.map_cons, h a (List.mem_cons_self a t),
      ih fun b hb => h b (List.mem_cons_of_mem a hb)]

theorem add_eq_of_key_mem {tracker : Tracker} {dependency : Nat} (dependant : Nat)
    (hc : tracker.any (fun p => p.1 = dependency) = true) :
    add tracker dependency dependant =
      tracker.map (fun p =>
        if p.1 = dependency then (p.1, insert dependant p.2) else p) := by
  simp [add, hc]

theorem add_key_mem (tracker : Tracker) (dependency dependant : Nat) :
    (add tracker dependency dependant).any (fun p => p.1 = dependency) = true := by
  by_cases hc : tracker.any (fun p => p.1 = dependency) = true
  · rw [add_eq_of_key_mem dependant hc]
    rw [List.any_eq_true] at hc ⊢
    obtain ⟨p, hp, hpd⟩ := hc
    have hpd' : p.1 = dependency := by simpa using hpd
    refine ⟨(p.1, insert dependant p.2), ?_, by simpa using hpd'⟩
    refine List.mem_map.mpr ⟨p, hp, ?_⟩
    rw [if_pos hpd']
  · rw [add, if_neg hc, List.any_eq_true]
    exact ⟨(dependency, {dependant}), by simp, by simp⟩

theorem mem_add_key {tracker : Tracker} {dependency dependant : Nat}
    {p : Nat × Finset Nat} (hp : p ∈ add tracker dependency dependant)
    (hpd : p.1 = dependency) : dependant ∈ p.2 := by
  by_cases hc : tracker.any (fun p => p.1 = dependency) = true
  · rw [add_eq_of_key_mem dependant hc] at hp
    obtain ⟨q, hq, hfq⟩ := List.mem_map.mp hp
    by_cases hqd : q.1 = dependency
    · rw [if_pos hqd] at hfq
      rw [← hfq]
      exact Finset.mem_insert_self dependant q.2
    · rw [if_neg hqd] at hfq
      exact absurd (hfq ▸ hpd) hqd
  · rw [add, if_neg hc] at hp
    rcases List.mem_append.mp hp with h1 | h1
    · rw [List.any_eq_true] at hc
      exact absurd ⟨p, h1, by simpa using hpd⟩ hc
    · have : p = (dependency, {dependant}) := by simpa using h1
      rw [this]
      exact Finset.mem_singleton_self dependant

theorem not_self_freed (tracker : Tracker) (dep : Nat) :
    dep ∉ (resolve tracker dep).1 := by
  intro hmem
  rw [resolve_fst_def] at hmem
  have hc := Finset.mem_of_mem_filter _ hmem
  cases hl : (purge tracker dep).lookup dep with
  | none => rw [hl] at hc; simp at hc
  | some s =>
    rw [hl] at hc
    simp only [Option.getD_some] at hc
    exact not_mem_of_mem_purge (mem_of_lookup_eq_some hl) hc

theorem freed_not_elsewhere {tracker : Tracker} {d t : Nat}
    (hfreed : t ∈ (resolve tracker d).1) {d0 : Nat} {s : Finset Nat}
    (hs : (d0, s) ∈ tracker) (hts : t ∈ s) : d0 = d := by
  by_contra hne
  have htd : t ≠ d := fun h => not_self_freed tracker d (h ▸ hfreed)
  have hfreed' := hfreed
  rw [resolve_fst_def] at hfreed'
  have hfalse : inSetsB ((resolve tracker d).2) t = false :=
    (Finset.mem_filter.mp hfreed').2
  rw [resolve_snd_eq] at hfalse
  have : ∃ p, p ∈ step tracker d ∧ t ∈ p.2 := by
    by_cases hd : d ∈ s
    · refine ⟨(d0, s.erase d), ?_, Finset.mem_erase.mpr ⟨htd, hts⟩⟩
      refine List.mem_filterMap.mpr ⟨(d0, s), hs, ?_⟩
      have hne' : ¬((d0, s).1 = d) := hne
      rw [if_neg hne']
      have hd' : d ∈ (d0, s).2 := hd
      rw [if_pos hd']
      have hnonempty : ¬((d0, s).2.erase d = ∅) := by
        intro hempty
        have ht' : t ∈ s.erase d := Finset.mem_erase.mpr ⟨htd, hts⟩
        have hempty' : s.erase d = ∅ := hempty
        rw [hempty'] at ht'
        exact absurd ht' (Finset.not_mem_empty t)
      rw [if_neg hnonempty]
    · refine ⟨(d0, s), ?_, hts⟩
      refine List.mem_filterMap.mpr ⟨(d0, s), hs, ?_⟩
      have hne' : ¬((d0, s).1 = d) := hne
      rw [if_neg hne']
      have hd' : ¬(d ∈ (d0, s).2) := hd
      rw [if_neg hd']
  rw [inSetsB_iff.mpr this] at hfalse
  simp at hfalse

theorem lookup_eq_some_of_mem {tracker : Tracker} (h : goodKeys tracker)
    {k : Nat} {s : Finset Nat} (hmem : (k, s) ∈ tracker) :
    tracker.lookup k = some s := by
  induction tracker with
  | nil => simp at hmem
  | cons q rest ih =>
    obtain ⟨qk, qv⟩ := q
    have h' : (qk :: rest.map Prod.fst).Nodup := h
    obtain ⟨hq, hrest⟩ := List.nodup_cons.mp h'
    rcases List.mem_cons.mp hmem with e1 | e1
    · obtain ⟨rfl, rfl⟩ := Prod.mk.injEq .. ▸ e1
      rw [List.lookup, beq_self_eq_true]
    · have hkq : k ≠ qk := by
        intro hkq
        subst hkq
        exact hq (List.mem_map.mpr ⟨(k, s), e1, rfl⟩)
      rw [List.lookup, beq_eq_false_iff_ne.mpr hkq]
      exact ih hrest e1

theorem add_ne_nil (tracker : Tracker) (dependency dependant : Nat) :
    add tracker dependency dependant ≠ [] := by
  rw [add]
  by_cases hc : tracker.any (fun p => p.1 = dependency) = true
  · rw [if_pos hc]
    intro hnil
    rw [List.map_eq_nil_iff] at hnil
    rw [hnil] at hc
    simp at hc
  · rw [if_neg hc]
    simp

theorem add_mem_self (tracker : Tracker) (dependency dependant : Nat) :
    ∃ s, (dependency, s) ∈ add tracker dependency dependant ∧ dependant ∈ s := by
  by_cases hc : tracker.any (fun p => p.1 = dependency) = true
  · rw [add_eq_of_key_mem dependant hc]
    rw [List.any_eq_true] at hc
    obtain ⟨p, hp, hpd⟩ := hc
    have hpd' : p.1 = dependency := by simpa using hpd
    refine ⟨insert dependant p.2, ?_, Finset.mem_insert_self dependant p.2⟩
    have : (dependency, insert dependant p.2) =
        (fun p => if p.1 = dependency then (p.1, insert dependant p.2) else p) p := by
      simp [hpd']
    rw [this]
    exact List.mem_map_of_mem _ hp
  · rw [add, if_neg hc]
    exact ⟨{dependant}, by simp, Finset.mem_singleton_self dependant⟩

theorem add_preserves_entry {tracker : Tracker} {d0 t : Nat} {s : Finset Nat}
    (hs : (d0, s) ∈ tracker) (hts : t ∈ s) (d' t' : Nat) :
    ∃ s', (d0, s') ∈ add tracker d' t' ∧ t ∈ s' := by
  by_cases hc : tracker.any (fun p => p.1 = d') = true
  · rw [add_eq_of_key_mem t' hc]
    by_cases hd : d0 = d'
    · refine ⟨insert t' s, ?_, Finset.mem_insert_of_mem hts⟩
      have : (d0, insert t' s) =
          (fun p => if p.1 = d' then (p.1, insert t' p.2) else p) (d0, s) := by
        simp [hd]
      rw [this]
      exact List.mem_map_of_mem _ hs
    · refine ⟨s, ?_, hts⟩
      have : (d0, s) = (fun p => if p.1 = d' then (p.1, insert t' p.2) else p) (d0, s) := by
        simp [hd]
      rw [this]
      exact List.mem_map_of_mem _ hs
  · rw [add, if_neg hc]
    exact ⟨s, List.mem_append_left _ hs, hts⟩

theorem resolve_preserves_entry {tracker : Tracker} {d0 t : Nat} {s : Finset Nat}
    (hs : (d0, s) ∈ tracker) (hts : t ∈ s) {d' : Nat} (hd0 : d' ≠ d0)
    (htne : d' ≠ t) :
    ∃ s', (d0, s') ∈ (resolve tracker d').2 ∧ t ∈ s' := by
  rw [resolve_snd_eq]
  by_cases hd : d' ∈ s
  · refine ⟨s.erase d', ?_, Finset.mem_erase.mpr ⟨fun h => htne h.symm, hts⟩⟩
    refine List.mem_filterMap.mpr ⟨(d0, s), hs, ?_⟩
    have h1 : ¬((d0, s).1 = d') := fun h => hd0 h.symm
    rw [if_neg h1]
    have h2 : d' ∈ (d0, s).2 := hd
    rw [if_pos h2]
    have h3 : ¬((d0, s).2.erase d' = ∅) := by
      intro hempty
      have ht' : t ∈ s.erase d' := Finset.mem_erase.mpr ⟨fun h => htne h.symm, hts⟩
      have hempty' : s.erase d' = ∅ := hempty
      rw [hempty'] at ht'
      exact absurd ht' (Finset.not_mem_empty t)
    rw [if_neg h3]
  · refine ⟨s, ?_, hts⟩
    refine List.mem_filterMap.mpr ⟨(d0, s), hs, ?_⟩
    have h1 : ¬((d0, s).1 = d') := fun h => hd0 h.symm
    rw [if_neg h1]
    have h2 : ¬(d' ∈ (d0, s).2) := hd
    rw [if_neg h2]

theorem runFrom_keeps_entry :
    ∀ (ops : List Op) (tracker : Tracker) (d0 t : Nat),
      ((∃ s, (d0, s) ∈ tracker ∧ t ∈ s) ∨ Op.add d0 t ∈ ops) →
      Op.resolve d0 ∉ ops → Op.resolve t ∉ ops →
      ∃ s, (d0, s) ∈ runFrom tracker ops ∧ t ∈ s := by
  intro ops
  induction ops with
  | nil =>
    intro tracker d0 t hstart _ _
    rcases hstart with h | h
    · exact h
    · simp at h
  | cons op rest ih =>
    intro tracker d0 t hstart hd0 ht
    have hd0r : Op.resolve d0 ∉ rest := fun h => hd0 (List.mem_cons_of_mem op h)
    have htr : Op.resolve t ∉ rest := fun h => ht (List.mem_cons_of_mem op h)
    rcases hstart with h | h
    · obtain ⟨s, hs, hts⟩ := h
      refine ih (applyOp tracker op) d0 t (Or.inl ?_) hd0r htr
      cases op with
      | add d' t' => exact add_preserves_entry hs hts d' t'
      | resolve d' =>
        have hne1 : d' ≠ d0 := by
          intro he
          subst he
          exact hd0 (List.mem_cons_self _ rest)
        have hne2 : d' ≠ t := by
          intro he
          subst he
          exact ht (List.mem_cons_self _ rest)
        exact resolve_preserves_entry hs hts hne1 hne2
    · rcases List.mem_cons.mp h with hop | hop
      · subst hop
        refine ih _ d0 t (Or.inl ?_) hd0r htr
        exact add_mem_self tracker d0 t
      · exact ih (applyOp tracker op) d0 t (Or.inr hop) hd0r htr

theorem step_eq_filterMap (tracker : Tracker) (d : Nat) :
    step tracker d = tracker.filterMap (stepFn d) := rfl

theorem resolve_fst_char {tracker : Tracker} {d : Nat} (h : goodKeys tracker) :
    (resolve tracker d).1 =
      ((depsOf tracker d).erase d).filter
        (fun t => inSetsB ((resolve tracker d).2) t = false) := by
  rw [resolve_fst_def, lookup_purge h]

theorem mem_step_key {tracker : Tracker} {d : Nat} {p : Nat × Finset Nat}
    (h : p ∈ step tracker d) : p.1 ∈ tracker.map Prod.fst := by
  obtain ⟨_, _, q, hq, hq1, _⟩ := mem_step h
  exact List.mem_map.mpr ⟨q, hq, hq1⟩

theorem goodKeys_step {tracker : Tracker} (h : goodKeys tracker) (d : Nat) :
    goodKeys (step tracker d) := by
  induction tracker with
  | nil => exact h
  | cons q rest ih =>
    have h' : (q.1 :: rest.map Prod.fst).Nodup := h
    obtain ⟨hq, hrest⟩ := List.nodup_cons.mp h'
    rw [step_cons]
    by_cases hk : q.1 = d
    · rw [if_pos hk]; exact ih hrest
    · rw [if_neg hk]
      by_cases hd : d ∈ q.2
      · rw [if_pos hd]
        by_cases he : q.2.erase d = ∅
        · rw [if_pos he]; exact ih hrest
        · rw [if_neg he]
          refine List.nodup_cons.mpr ⟨?_, ih hrest⟩
          intro hmem
          obtain ⟨p, hp, hpk⟩ := List.mem_map.mp hmem
          exact hq (hpk ▸ mem_step_key hp)
      · rw [if_neg hd]
        refine List.nodup_cons.mpr ⟨?_, ih hrest⟩
        intro hmem
        obtain ⟨p, hp, hpk⟩ := List.mem_map.mp hmem
        exact hq (hpk ▸ mem_step_key hp)

theorem inSetsB_step_iff {tracker : Tracker} {d t : Nat} :
    inSetsB (step tracker d) t = true ↔
      t ≠ d ∧ ∃ p, p ∈ tracker ∧ p.1 ≠ d ∧ t ∈ p.2 := by
  constructor
  · intro h
    obtain ⟨p, hp, hpt⟩ := inSetsB_iff.mp h
    obtain ⟨h1, h2, q, hq, hq1, hq2, _⟩ := mem_step hp
    exact ⟨fun he => h2 (he ▸ hpt), q, hq, hq1 ▸ h1, hq2 hpt⟩
  · rintro ⟨htd, p, hp, hp1, hpt⟩
    refine inSetsB_iff.mpr ?_
    by_cases hd : d ∈ p.2
    · refine ⟨(p.1, p.2.erase d), ?_, Finset.mem_erase.mpr ⟨htd, hpt⟩⟩
      refine List.mem_filterMap.mpr ⟨p, hp, ?_⟩
      rw [if_neg hp1, if_pos hd, if_neg ?_]
      intro hempty
      have ht' : t ∈ p.2.erase d := Finset.mem_erase.mpr ⟨htd, hpt⟩
      rw [hempty] at ht'
      exact absurd ht' (Finset.not_mem_empty t)
    · exact ⟨p, List.mem_filterMap.mpr ⟨p, hp, by rw [if_neg hp1, if_neg hd]⟩, hpt⟩

theorem inSetsB_step_mono {tracker : Tracker} {d t : Nat}
    (h : inSetsB (step tracker d) t = true) : inSetsB tracker t = true := by
  obtain ⟨_, p, hp, _, hpt⟩ := inSetsB_step_iff.mp h
  exact inSetsB_iff.mpr ⟨p, hp, hpt⟩

theorem depsOf_step {tracker : Tracker} {d1 d2 : Nat} (h : goodKeys tracker)
    (hne : d1 ≠ d2) (hu2 : ∀ s, (d2, s) ∈ tracker → d1 ∉ s) :
    depsOf (step tracker d1) d2 = depsOf tracker d2 := by
  cases hl : tracker.lookup d2 with
  | none =>
    have hnk : ∀ s : Finset Nat, (d2, s) ∉ tracker := by
      intro s hs
      rw [lookup_eq_some_of_mem h hs] at hl
      cases hl
    have hstep : (step tracker d1).lookup d2 = none := by
      refine lookup_eq_none_of_not_key fun p hp hpd => ?_
      obtain ⟨_, _, q, hq, hq1, _⟩ := mem_step hp
      refine hnk q.2 ?_
      have : q = (d2, q.2) := by
        rw [← hpd, ← hq1]
      rw [← this]
      exact hq
    rw [depsOf, depsOf, hl, hstep]
  | some s =>
    have hmem : (d2, s) ∈ tracker := mem_of_lookup_eq_some hl
    have hd1 : d1 ∉ s := hu2 s hmem
    have himg : (d2, s) ∈ step tracker d1 := by
      refine List.mem_filterMap.mpr ⟨(d2, s), hmem, ?_⟩
      have h1 : ¬((d2, s).1 = d1) := fun hh => hne hh.symm
      rw [if_neg h1]
      have h2 : ¬(d1 ∈ (d2, s).2) := hd1
      rw [if_neg h2]
    rw [depsOf, depsOf, hl, lookup_eq_some_of_mem (goodKeys_step h d1) himg]

theorem stepFn_comm {d1 d2 : Nat} (hne : d1 ≠ d2) {p : Nat × Finset Nat}
    (h1 : p.1 = d1 → d2 ∉ p.2) (h2 : p.1 = d2 → d1 ∉ p.2) :
    (stepFn d1 p).bind (stepFn d2) = (stepFn d2 p).bind (stepFn d1) := by
  obtain ⟨k, s⟩ := p
  have hne' : d2 ≠ d1 := fun h => hne h.symm
  by_cases k1 : k = d1
  · have hd2 : d2 ∉ s := h1 k1
    simp [stepFn, k1, hne, hne', hd2]
  · by_cases k2 : k = d2
    · have hd1 : d1 ∉ s := h2 k2
      simp [stepFn, k2, hne, hne', hd1]
    · by_cases m1 : d1 ∈ s <;> by_cases m2 : d2 ∈ s
      · have hd2e : d2 ∈ s.erase d1 := Finset.mem_erase.mpr ⟨hne', m2⟩
        have hd1e : d1 ∈ s.erase d2 := Finset.mem_erase.mpr ⟨hne, m1⟩
        have he1 : ¬(s.erase d1 = ∅) := by
          intro h
          rw [h] at hd2e
          exact absurd hd2e (Finset.not_mem_empty d2)
        have he2 : ¬(s.erase d2 = ∅) := by
          intro h
          rw [h] at hd1e
          exact absurd hd1e (Finset.not_mem_empty d1)
        have hcomm : (s.erase d1).erase d2 = (s.erase d2).erase d1 :=
          Finset.erase_right_comm
        simp [stepFn, k1, k2, m1, m2, he1, he2, hd2e, hd1e, hcomm]
      · have hd2e : d2 ∉ s.erase d1 := fun h => m2 (Finset.mem_of_mem_erase h)
        by_cases he1 : s.erase d1 = ∅ <;>
          simp [stepFn, k1, k2, m1, m2, he1, hd2e]
      · have hd1e : d1 ∉ s.erase d2 := fun h => m1 (Finset.mem_of_mem_erase h)
        by_cases he2 : s.erase d2 = ∅ <;>
          simp [stepFn, k1, k2, m1, m2, he2, hd1e]
      · simp [stepFn, k1, k2, m1, m2]

theorem step_comm {tracker : Tracker} {d1 d2 : Nat} (hne : d1 ≠ d2)
    (h : ∀ p ∈ tracker, (p.1 = d1 → d2 ∉ p.2) ∧ (p.1 = d2 → d1 ∉ p.2)) :
    step (step tracker d1) d2 = step (step tracker d2) d1 := by
  rw [step_eq_filterMap tracker d1, step_eq_filterMap tracker d2,
    step_eq_filterMap, step_eq_filterMap,
    List.filterMap_filterMap, List.filterMap_filterMap]
  exact List.filterMap_congr fun p hp => stepFn_comm hne (h p hp).1 (h p hp).2

theorem freed_union_char {A B : Finset Nat} {t : Nat} {b1 bf : Bool}
    (hmono : b1 = false → bf = false)
    (hloc : t ∈ A → bf = false → b1 = true → t ∈ B) :
    ((t ∈ A ∧ b1 = false) ∨ (t ∈ B ∧ bf = false)) ↔
      ((t ∈ A ∨ t ∈ B) ∧ bf = false) := by
  constructor
  · rintro (⟨ha, h1⟩ | ⟨hb, hf⟩)
    · exact ⟨Or.inl ha, hmono h1⟩
    · exact ⟨Or.inr hb, hf⟩
  · rintro ⟨hab, hf⟩
    rcases hab with ha | hb
    · cases hb1 : b1 with
      | false => exact Or.inl ⟨ha, rfl⟩
      | true => exact Or.inr ⟨hloc ha hf hb1, hf⟩
    · exact Or.inr ⟨hb, hf⟩

/-! ## Depth-first traversal lemmas -/

theorem visitAux_nil (neigh : Nat → List Nat) (fuel : Nat) (path processed : List Nat) :
    visitAux neigh fuel path processed [] = some (Except.ok processed) := by
  conv_lhs => unfold visitAux

theorem visitAux_cons (neigh : Nat → List Nat) (fuel : Nat)
    (path processed : List Nat) (m : Nat) (ms : List Nat) :
    visitAux neigh fuel path processed (m :: ms) =
      if m ∈ path then some (Except.error m)
      else if m ∈ processed then visitAux neigh fuel path processed ms
      else
        match fuel with
        | 0 => none
        | f + 1 =>
          match visitAux neigh f (m :: path) processed (neigh m) with
          | none => none
          | some (Except.error e) => some (Except.error e)
          | some (Except.ok proc) => visitAux neigh (f + 1) path (m :: proc) ms := by
  conv_lhs => unfold visitAux

theorem path_len_le {S path : List Nat} (hnodup : path.Nodup)
    (hpath : ∀ x ∈ path, x ∈ S) : path.length ≤ S.length := by
  have h1 : path.toFinset.card = path.length := List.toFinset_card_of_nodup hnodup
  have h2 : path.toFinset ⊆ S.toFinset := by
    intro x hx
    exact List.mem_toFinset.mpr (hpath x (List.mem_toFinset.mp hx))
  have h3 := Finset.card_le_card h2
  have h4 := S.toFinset_card_le
  omega

theorem visitAux_ne_none {neigh : Nat → List Nat} {S : List Nat}
    (hS : ∀ a b, b ∈ neigh a → b ∈ S) :
    ∀ (fuel : Nat) (pending path processed : List Nat),
      (∀ m ∈ pending, m ∈ S) → path.Nodup → (∀ x ∈ path, x ∈ S) →
      S.length + 1 ≤ fuel + path.length →
      visitAux neigh fuel path processed pending ≠ none := by
  intro fuel
  induction fuel with
  | zero =>
    intro pending path processed hpend hnodup hpath hfuel
    exfalso
    have := path_len_le hnodup hpath
    omega
  | succ f ih =>
    intro pending
    induction pending with
    | nil =>
      intro path processed _ _ _ _
      rw [visitAux_nil]
      simp
    | cons m ms ihp =>
      intro path processed hpend hnodup hpath hfuel
      rw [visitAux_cons]
      by_cases hm : m ∈ path
      · simp [hm]
      · rw [if_neg hm]
        by_cases hproc : m ∈ processed
        · rw [if_pos hproc]
          exact ihp path processed (fun x hx => hpend x (List.mem_cons_of_mem m hx))
            hnodup hpath hfuel
        · rw [if_neg hproc]
          have hmS : m ∈ S := hpend m (List.mem_cons_self m ms)
          have hsub : visitAux neigh f (m :: path) processed (neigh m) ≠ none := by
            refine ih (neigh m) (m :: path) processed (fun b hb => hS m b hb)
              (List.nodup_cons.mpr ⟨hm, hnodup⟩) ?_ ?_
            · intro x hx
              rcases List.mem_cons.mp hx with hxm | hx
              · rw [hxm]; exact hmS
              · exact hpath x hx
            · simp only [List.length_cons]
              omega
          show (match visitAux neigh f (m :: path) processed (neigh m) with
            | none => none
            | some (Except.error e) => some (Except.error e)
            | some (Except.ok proc) => visitAux neigh (f + 1) path (m :: proc) ms) ≠ none
          cases hres : visitAux neigh f (m :: path) processed (neigh m) with
          | none => exact absurd hres hsub
          | some r =>
            cases r with
            | error e => simp
            | ok proc =>
              exact ihp path (m :: proc) (fun x hx => hpend x (List.mem_cons_of_mem m hx))
                hnodup hpath hfuel

theorem visitAux_error_cycle {neigh : Nat → List Nat} :
    ∀ (fuel : Nat) (pending path processed : List Nat) (e : Nat),
      (∀ m ∈ pending, ∀ q ∈ path, Relation.TransGen (fun a c => c ∈ neigh a) q m) →
      visitAux neigh fuel path processed pending = some (Except.error e) →
      Relation.TransGen (fun a c => c ∈ neigh a) e e := by
  intro fuel
  induction fuel with
  | zero =>
    intro pending
    induction pending with
    | nil =>
      intro path processed e _ hres
      rw [visitAux_nil] at hres
      simp at hres
    | cons m ms ihp =>
      intro path processed e hp hres
      rw [visitAux_cons] at hres
      by_cases hm : m ∈ path
      · rw [if_pos hm] at hres
        have hme : m = e := by simpa using hres
        rw [← hme]
        exact hp m (List.mem_cons_self m ms) m hm
      · rw [if_neg hm] at hres
        by_cases hproc : m ∈ processed
        · rw [if_pos hproc] at hres
          exact ihp path processed e (fun x hx => hp x (List.mem_cons_of_mem m hx)) hres
        · rw [if_neg hproc] at hres
          simp at hres
  | succ f ih =>
    intro pending
    induction pending with
    | nil =>
      intro path processed e _ hres
      rw [visitAux_nil] at hres
      simp at hres
    | cons m ms ihp =>
      intro path processed e hp hres
      rw [visitAux_cons] at hres
      by_cases hm : m ∈ path
      · rw [if_pos hm] at hres
        have hme : m = e := by simpa using hres
        rw [← hme]
        exact hp m (List.mem_cons_self m ms) m hm
      · rw [if_neg hm] at hres
        by_cases hproc : m ∈ processed
        · rw [if_pos hproc] at hres
          exact ihp path processed e (fun x hx => hp x (List.mem_cons_of_mem m hx)) hres
        · rw [if_neg hproc] at hres
          have hres' : (match visitAux neigh f (m :: path) processed (neigh m) with
              | none => none
              | some (Except.error e2) => some (Except.error e2)
              | some (Except.ok proc) => visitAux neigh (f + 1) path (m :: proc) ms)
              = some (Except.error e) := hres
          cases hsub : visitAux neigh f (m :: path) processed (neigh m) with
          | none => rw [hsub] at hres'; simp at hres'
          | some r =>
            cases r with
            | error e2 =>
              rw [hsub] at hres'
              have he2 : e2 = e := by simpa using hres'
              rw [he2] at hsub
              refine ih (neigh m) (m :: path) processed e ?_ hsub
              intro b hb q hq
              rcases List.mem_cons.mp hq with hqm | hq
              · rw [hqm]
                exact Relation.TransGen.single hb
              · exact Relation.TransGen.tail (hp m (List.mem_cons_self m ms) q hq) hb
            | ok proc1 =>
              rw [hsub] at hres'
              exact ihp path (m :: proc1) e
                (fun x hx => hp x (List.mem_cons_of_mem m hx)) hres'

theorem closed_reach {neigh : Nat → List Nat} {P : List Nat}
    (hcl : ∀ x ∈ P, ∀ y ∈ neigh x, y ∈ P) {b x : Nat} (hb : b ∈ P)
    (hreach : Relation.ReflTransGen (fun a c => c ∈ neigh a) b x) : x ∈ P := by
  induction hreach with
  | refl => exact hb
  | tail _ hstep ihr => exact hcl _ ihr _ hstep

theorem visitAux_ok_spec {neigh : Nat → List Nat} :
    ∀ (fuel : Nat) (pending path processed proc : List Nat),
      visitAux neigh fuel path processed pending = some (Except.ok proc) →
      (∀ x ∈ processed, ∀ y ∈ neigh x, y ∈ processed) →
      (∀ x ∈ processed, ¬ Relation.TransGen (fun a c => c ∈ neigh a) x x) →
      (∀ x ∈ path, x ∉ processed) →
      (∀ x ∈ processed, x ∈ proc) ∧
        (∀ x ∈ proc, ∀ y ∈ neigh x, y ∈ proc) ∧
        (∀ x ∈ proc, ¬ Relation.TransGen (fun a c => c ∈ neigh a) x x) ∧
        (∀ m ∈ pending, m ∈ proc) ∧
        (∀ x ∈ path, x ∉ proc) := by
  intro fuel
  induction fuel with
  | zero =>
    intro pending
    induction pending with
    | nil =>
      intro path processed proc hres hcl hacy hdisj
      rw [visitAux_nil] at hres
      have hpp : processed = proc := by simpa using hres
      rw [← hpp]
      exact ⟨fun x hx => hx, hcl, hacy, by simp, hdisj⟩
    | cons m ms ihp =>
      intro path processed proc hres hcl hacy hdisj
      rw [visitAux_cons] at hres
      by_cases hm : m ∈ path
      · rw [if_pos hm] at hres
        simp at hres
      · rw [if_neg hm] at hres
        by_cases hproc : m ∈ processed
        · rw [if_pos hproc] at hres
          obtain ⟨c1, c2, c3, c4, c5⟩ := ihp path processed proc hres hcl hacy hdisj
          refine ⟨c1, c2, c3, ?_, c5⟩
          intro x hx
          rcases List.mem_cons.mp hx with hxm | hx
          · rw [hxm]
            exact c1 m hproc
          · exact c4 x hx
        · rw [if_neg hproc] at hres
          simp at hres
  | succ f ih =>
    intro pending
    induction pending with
    | nil =>
      intro path processed proc hres hcl hacy hdisj
      rw [visitAux_nil] at hres
      have hpp : processed = proc := by simpa using hres
      rw [← hpp]
      exact ⟨fun x hx => hx, hcl, hacy, by simp, hdisj⟩
    | cons m ms ihp =>
      intro path processed proc hres hcl hacy hdisj
      rw [visitAux_cons] at hres
      by_cases hm : m ∈ path
      · rw [if_pos hm] at hres
        simp at hres
      · rw [if_neg hm] at hres
        by_cases hproc : m ∈ processed
        · rw [if_pos hproc] at hres
          obtain ⟨c1, c2, c3, c4, c5⟩ := ihp path processed proc hres hcl hacy hdisj
          refine ⟨c1, c2, c3, ?_, c5⟩
          intro x hx
          rcases List.mem_cons.mp hx with hxm | hx
          · rw [hxm]
            exact c1 m hproc
          · exact c4 x hx
        · rw [if_neg hproc] at hres
          have hres' : (match visitAux neigh f (m :: path) processed (neigh m) with
              | none => none
              | some (Except.error e2) => some (Except.error e2)
              | some (Except.ok proc1) => visitAux neigh (f + 1) path (m :: proc1) ms)
              = some (Except.ok proc) := hres
          cases hsub : visitAux neigh f (m :: path) processed (neigh m) with
          | none => rw [hsub] at hres'; simp at hres'
          | some r =>
            cases r with
            | error e2 => rw [hsub] at hres'; simp at hres'
            | ok proc1 =>
              rw [hsub] at hres'
              have hdisj1 : ∀ x ∈ m :: path, x ∉ processed := by
                intro x hx
                rcases List.mem_cons.mp hx with hxm | hx
                · rw [hxm]; exact hproc
                · exact hdisj x hx
              obtain ⟨c1, c2, c3, c4, c5⟩ :=
                ih (neigh m) (m :: path) processed proc1 hsub hcl hacy hdisj1
              have hmnotin : m ∉ proc1 := c5 m (List.mem_cons_self m path)
              have hcl1 : ∀ x ∈ m :: proc1, ∀ y ∈ neigh x, y ∈ m :: proc1 := by
                intro x hx y hy
                rcases List.mem_cons.mp hx with hxm | hx
                · rw [hxm] at hy
                  exact List.mem_cons_of_mem m (c4 y hy)
                · exact List.mem_cons_of_mem m (c2 x hx y hy)
              have hacy1 : ∀ x ∈ m :: proc1,
                  ¬ Relation.TransGen (fun a c => c ∈ neigh a) x x := by
                intro x hx
                rcases List.mem_cons.mp hx with hxm | hx
                · rw [hxm]
                  intro hcyc
                  obtain ⟨b, hb, hreach⟩ := Relation.TransGen.head'_iff.mp hcyc
                  exact hmnotin (closed_reach c2 (c4 b hb) hreach)
                · exact c3 x hx
              have hdisj2 : ∀ x ∈ path, x ∉ m :: proc1 := by
                intro x hx hmem
                rcases List.mem_cons.mp hmem with hxm | hmem
                · rw [hxm] at hx
                  exact hm hx
                · exact c5 x (List.mem_cons_of_mem m hx) hmem
              obtain ⟨d1, d2, d3, d4, d5⟩ :=
                ihp path (m :: proc1) proc hres' hcl1 hacy1 hdisj2
              refine ⟨?_, d2, d3, ?_, d5⟩
              · intro x hx
                exact d1 x (List.mem_cons_of_mem m (c1 x hx))
              · intro x hx
                rcases List.mem_cons.mp hx with hxm | hx
                · rw [hxm]
                  exact d1 m (List.mem_cons_self m proc1)
                · exact d4 x hx

theorem mem_nodesOf_dep {tracker : Tracker} {k b : Nat} {s : Finset Nat}
    (hks : (k, s) ∈ tracker) (hb : b ∈ s) : b ∈ nodesOf tracker := by
  rw [nodesOf]
  refine List.mem_append_right _ ?_
  induction tracker with
  | nil => simp at hks
  | cons q rest ih =>
    rw [List.foldr_cons]
    rcases List.mem_cons.mp hks with he | hr
    · refine List.mem_append_left _ ?_
      rw [Finset.mem_sort]
      have : s = q.2 := congrArg Prod.snd he
      rw [← this]
      exact hb
    · exact List.mem_append_right _ (ih hr)

theorem neighList_sub_nodes (tracker : Tracker) :
    ∀ a b, b ∈ neighList tracker a → b ∈ nodesOf tracker := by
  intro a b hb
  rw [neighList, Finset.mem_sort] at hb
  rw [depsOf] at hb
  cases hl : tracker.lookup a with
  | none => rw [hl] at hb; simp at hb
  | some s =>
    rw [hl] at hb
    simp only [Option.getD_some] at hb
    exact mem_nodesOf_dep (mem_of_lookup_eq_some hl) hb

theorem key_of_neigh {tracker : Tracker} {a b : Nat}
    (hb : b ∈ neighList tracker a) : a ∈ tracker.map Prod.fst := by
  rw [neighList, Finset.mem_sort, depsOf] at hb
  cases hl : tracker.lookup a with
  | none => rw [hl] at hb; simp at hb
  | some s => exact List.mem_map.mpr ⟨(a, s), mem_of_lookup_eq_some hl, rfl⟩

theorem lookup_append (l1 l2 : Tracker) (d : Nat) :
    (l1 ++ l2).lookup d =
      match l1.lookup d with
      | some v => some v
      | none => l2.lookup d := by
  induction l1 with
  | nil => rfl
  | cons q rest ih =>
    obtain ⟨k, v⟩ := q
    by_cases hdk : d = k
    · rw [List.cons_append, List.lookup, List.lookup,
        beq_iff_eq.mpr hdk]
    · rw [List.cons_append, List.lookup, List.lookup,
        beq_eq_false_iff_ne.mpr hdk, ih]

theorem lookup_isSome_of_key {tracker : Tracker} {a : Nat}
    (h : a ∈ tracker.map Prod.fst) : ∃ v, tracker.lookup a = some v := by
  induction tracker with
  | nil => simp at h
  | cons q rest ih =>
    obtain ⟨k, v⟩ := q
    by_cases hak : a = k
    · exact ⟨v, by rw [List.lookup, beq_iff_eq.mpr hak]⟩
    · have h' : a ∈ rest.map Prod.fst := by
        rcases List.mem_cons.mp h with he | hr
        · exact absurd he hak
        · exact hr
      obtain ⟨w, hw⟩ := ih h'
      exact ⟨w, by rw [List.lookup, beq_eq_false_iff_ne.mpr hak, hw]⟩

theorem lookup_add_map (tracker : Tracker) (a b d : Nat) :
    (tracker.map (fun p =>
        if p.1 = a then (p.1, insert b p.2) else p)).lookup d =
      (tracker.lookup d).map (fun v => if d = a then insert b v else v) := by
  induction tracker with
  | nil => rfl
  | cons q rest ih =>
    obtain ⟨k, v⟩ := q
    by_cases hk : k = a
    · rw [List.map_cons]
      have hhead : (if (k, v).1 = a then ((k, v).1, insert b (k, v).2) else (k, v)) =
          (k, insert b v) := by
        simp [hk]
      rw [hhead]
      by_cases hdk : d = k
      · rw [List.lookup, beq_iff_eq.mpr hdk, List.lookup, beq_iff_eq.mpr hdk]
        simp [hdk, hk]
      · rw [List.lookup, beq_eq_false_iff_ne.mpr hdk, List.lookup,
          beq_eq_false_iff_ne.mpr hdk, ih]
    · rw [List.map_cons]
      have hhead : (if (k, v).1 = a then ((k, v).1, insert b (k, v).2) else (k, v)) =
          (k, v) := by
        simp [hk]
      rw [hhead]
      by_cases hdk : d = k
      · rw [List.lookup, beq_iff_eq.mpr hdk, List.lookup, beq_iff_eq.mpr hdk]
        have hda : ¬(d = a) := fun h => hk ((hdk.symm.trans h))
        simp [hda]
      · rw [List.lookup, beq_eq_false_iff_ne.mpr hdk, List.lookup,
          beq_eq_false_iff_ne.mpr hdk, ih]

theorem depsOf_add (tracker : Tracker) (a b d : Nat) :
    depsOf (add tracker a b) d =
      if d = a then insert b (depsOf tracker d) else depsOf tracker d := by
  by_cases hc : tracker.any (fun p => p.1 = a) = true
  · rw [add_eq_of_key_mem b hc, depsOf, lookup_add_map]
    by_cases hdk : d = a
    · rw [if_pos hdk]
      subst hdk
      have hkey : d ∈ tracker.map Prod.fst := by
        rw [List.any_eq_true] at hc
        obtain ⟨p, hp, hpa⟩ := hc
        have hpa' : p.1 = d := by simpa using hpa
        exact List.mem_map.mpr ⟨p, hp, hpa'⟩
      obtain ⟨v, hv⟩ := lookup_isSome_of_key hkey
      rw [hv]
      simp [depsOf, hv]
    · rw [if_neg hdk]
      cases hl : tracker.lookup d with
      | none => simp [depsOf, hl]
      | some v => simp [depsOf, hl, hdk]
  · have hnk : tracker.lookup a = none := by
      refine lookup_eq_none_of_not_key fun p hp hpa => ?_
      exact hc (List.any_eq_true.mpr ⟨p, hp, by simpa using hpa⟩)
    rw [add, if_neg hc, depsOf, lookup_append]
    by_cases hdk : d = a
    · rw [if_pos hdk, hdk, hnk]
      simp [List.lookup, depsOf, hnk]
    · rw [if_neg hdk]
      cases hl : tracker.lookup d with
      | none =>
        simp [List.lookup, beq_eq_false_iff_ne.mpr hdk, depsOf, hl]
      | some v =>
        simp [depsOf, hl]

theorem depsOf_foldl :
    ∀ (ps : List (Nat × Nat)) (tracker : Tracker) (d t : Nat),
      t ∈ depsOf (ps.foldl (fun T p => add T p.1 p.2) tracker) d ↔
        (d, t) ∈ ps ∨ t ∈ depsOf tracker d := by
  intro ps
  induction ps with
  | nil =>
    intro tracker d t
    simp
  | cons p rest ih =>
    intro tracker d t
    simp only [List.foldl_cons]
    rw [ih, depsOf_add]
    by_cases hdk : d = p.1
    · rw [if_pos hdk, Finset.mem_insert]
      constructor
      · rintro (hr | ht | hd2)
        · exact Or.inl (List.mem_cons_of_mem p hr)
        · refine Or.inl (List.mem_cons.mpr (Or.inl ?_))
          rw [hdk, ht]
        · exact Or.inr hd2
      · rintro (hmem | hd2)
        · rcases List.mem_cons.mp hmem with he | hr
          · exact Or.inr (Or.inl (congrArg Prod.snd he))
          · exact Or.inl hr
        · exact Or.inr (Or.inr hd2)
    · rw [if_neg hdk]
      constructor
      · rintro (hr | hd2)
        · exact Or.inl (List.mem_cons_of_mem p hr)
        · exact Or.inr hd2
      · rintro (hmem | hd2)
        · rcases List.mem_cons.mp hmem with he | hr
          · exact absurd (congrArg Prod.fst he) hdk
          · exact Or.inl hr
        · exact Or.inr hd2

theorem edge_iff_neigh (ps : List (Nat × Nat)) (a b : Nat) :
    (a, b) ∈ ps ↔ b ∈ neighList (addAll ps) a := by
  rw [neighList, Finset.mem_sort, addAll, depsOf_foldl]
  simp [depsOf, List.lookup]

theorem edge_rel_eq (ps : List (Nat × Nat)) :
    (fun a b => (a, b) ∈ ps) = (fun a b => b ∈ neighList (addAll ps) a) := by
  funext a b
  exact propext (edge_iff_neigh ps a b)

/-! ## Claim theorems -/

/-- C1 (amended): for a well-formed tracker, `resolve(d)` returns exactly the
direct dependants of `d` other than `d` itself that do not appear as a
dependant under any key remaining after `d` has been purged and its entry
popped. -/
theorem resolve_freed_spec (tracker : Tracker) (d : Nat) (h : goodKeys tracker) :
    (resolve tracker d).1 =
      ((depsOf tracker d).erase d).filter
        (fun t => inSetsB ((resolve tracker d).2) t = false) := by
  rw [resolve_fst_def, lookup_purge h]

/-- Witness for C1 at the fan-out tracker from the source doctest. -/
theorem resolve_freed_spec_witness :
    goodKeys [(0, ({1, 2} : Finset Nat)), (2, {3})] ∧
      (resolve [(0, ({1, 2} : Finset Nat)), (2, {3})] 0).1 =
        ((depsOf [(0, ({1, 2} : Finset Nat)), (2, {3})] 0).erase 0).filter
          (fun t =>
            inSetsB ((resolve [(0, ({1, 2} : Finset Nat)), (2, {3})] 0).2) t = false) :=
  ⟨by decide, resolve_freed_spec [(0, {1, 2}), (2, {3})] 0 (by decide)⟩

/-- Counterexample to C1 as stated: with the self-loop entry `0 ↦ {0}`, the
claimed set (the direct dependants of `0` not appearing under any remaining
key) is `{0}`, but `resolve 0` returns `∅`: the code also strips `d` itself
from the captured dependant-set. -/
theorem resolve_freed_claim_ctex :
    resolve [(0, ({0} : Finset Nat))] 0 = (∅, []) ∧
      (depsOf [(0, ({0} : Finset Nat))] 0).filter
        (fun t => inSetsB ((resolve [(0, ({0} : Finset Nat))] 0).2) t = false)
        = {0} := by
  decide

/-- C2: after `resolve(d)`, the identity `d` is not a key of the structure
and belongs to no remaining dependant-set; moreover any entry whose
dependant-set is emptied by the purge has its key dropped entirely. -/
theorem resolve_removes_identity (tracker : Tracker) (d : Nat) (h : goodKeys tracker) :
    (∀ p ∈ (resolve tracker d).2, p.1 ≠ d ∧ d ∉ p.2) ∧
      ∀ k s, (k, s) ∈ tracker → d ∈ s → s.erase d = ∅ →
        k ∉ ((resolve tracker d).2.map Prod.fst) := by
  constructor
  · intro p hp
    rw [resolve_snd_eq] at hp
    obtain ⟨h1, h2, _⟩ := mem_step hp
    exact ⟨h1, h2⟩
  · intro k s hks hd he hkmem
    rw [resolve_snd_eq] at hkmem
    obtain ⟨p, hp, hpk⟩ := List.mem_map.mp hkmem
    obtain ⟨h1, h2, ⟨qk, qv⟩, hq, hq1, hq2, hq3, hq4⟩ := mem_step hp
    rw [hpk] at hq1
    rw [show (⟨qk, qv⟩ : Nat × Finset Nat).1 = qk from rfl] at hq1
    subst hq1
    have hv : qv = s := goodKeys_unique h hq hks
    subst hv
    exact (hq3 hd).2 he

/-- Witness for C2 at a tracker where the purge empties a dependant-set:
resolving `1` removes it from the set of key `0`, emptying it, so key `0`
is dropped. -/
theorem resolve_removes_identity_witness :
    goodKeys [(0, ({1} : Finset Nat))] ∧
      (∀ p ∈ (resolve [(0, ({1} : Finset Nat))] 1).2, p.1 ≠ 1 ∧ 1 ∉ p.2) ∧
      (0 ∉ ((resolve [(0, ({1} : Finset Nat))] 1).2.map Prod.fst)) :=
  ⟨by decide,
    (resolve_removes_identity [(0, {1})] 1 (by decide)).1,
    (resolve_removes_identity [(0, {1})] 1 (by decide)).2 0 {1} (by decide)
      (by decide) (by decide)⟩

/-- C6: a second `resolve` on the same identity is a no-op returning the
empty set and leaving the structure unchanged. -/
theorem resolve_twice_noop (tracker : Tracker) (d : Nat) :
    resolve ((resolve tracker d).2) d = (∅, (resolve tracker d).2) := by
  have hall : ∀ p ∈ (resolve tracker d).2, p.1 ≠ d ∧ d ∉ p.2 := by
    intro p hp
    rw [resolve_snd_eq] at hp
    obtain ⟨h1, h2, _⟩ := mem_step hp
    exact ⟨h1, h2⟩
  have hpurge : purge ((resolve tracker d).2) d = (resolve tracker d).2 :=
    purge_eq_self fun p hp => (hall p hp).2
  have hnone : ((resolve tracker d).2).lookup d = none :=
    lookup_eq_none_of_not_key fun p hp => (hall p hp).1
  have hfilter : ((resolve tracker d).2).filter (fun p => p.1 ≠ d) =
      (resolve tracker d).2 :=
    List.filter_eq_self.mpr fun p hp => by simpa using (hall p hp).1
  rw [resolve_def, hpurge, hnone, hfilter]
  simp

/-- C7: `add` is idempotent: registering the same pair twice leaves the
structure exactly as after the first registration (this also covers the
self-referential pair `add d d`, which raises no error in the embedding by
totality). -/
theorem add_idempotent (tracker : Tracker) (dependency dependant : Nat) :
    add (add tracker dependency dependant) dependency dependant =
      add tracker dependency dependant := by
  rw [add_eq_of_key_mem dependant (add_key_mem tracker dependency dependant)]
  refine map_eq_self_of_mem fun p hp => ?_
  by_cases hpd : p.1 = dependency
  · rw [if_pos hpd]
    have : dependant ∈ p.2 := mem_add_key hp hpd
    rw [Finset.insert_eq_self.mpr this]
  · rw [if_neg hpd]

/-- C10 (amended): if a well-formed tracker holds the self-loop entry
`d ↦ {d}` and `d` occurs nowhere else in the structure (every other entry
neither has key `d` nor contains `d` in its dependant-set), then
`resolve d` returns the empty set — a node is never reported as freed by
its own completion; and when that entry is moreover the only entry of the
structure, the tracker is fully resolved afterwards. -/
theorem self_loop_resolve (tracker : Tracker) (d : Nat) (h : goodKeys tracker)
    (hmem : (d, ({d} : Finset Nat)) ∈ tracker)
    (honly : ∀ p ∈ tracker, p.1 ≠ d → d ∉ p.2) :
    (resolve tracker d).1 = ∅ ∧
      (tracker = [(d, {d})] →
        all_dependencies_resolved ((resolve tracker d).2) = true) := by
  constructor
  · rw [resolve_fst_char h]
    have hdeps : depsOf tracker d = {d} := by
      rw [depsOf, lookup_eq_some_of_mem h hmem]
      rfl
    rw [hdeps]
    simp
  · intro htr
    rw [htr]
    have h1 : purge [(d, ({d} : Finset Nat))] d = [] := by
      rw [purge_cons]
      simp [purge]
    have h2 : resolve [(d, ({d} : Finset Nat))] d = (∅, []) := by
      rw [resolve_def, h1]
      simp [List.lookup]
    rw [h2]
    rfl

/-- Witness for C10: with the extra entry `5 ↦ {6}` present, `resolve 0`
still returns the empty set; on the singleton structure the tracker is
fully resolved afterwards. -/
theorem self_loop_resolve_witness :
    (resolve [(0, ({0} : Finset Nat)), (5, {6})] 0).1 = ∅ ∧
      all_dependencies_resolved ((resolve [(0, ({0} : Finset Nat))] 0).2) = true :=
  ⟨(self_loop_resolve [(0, {0}), (5, {6})] 0 (by decide) (by decide) (by decide)).1,
    (self_loop_resolve [(0, {0})] 0 (by decide) (by decide) (by decide)).2 rfl⟩

/-- Counterexample to C10 as stated: `0`'s only occurrence is its self-loop
entry, `resolve 0` does return the empty set, but with another entry
`5 ↦ {6}` present the tracker is not fully resolved afterwards. -/
theorem self_loop_claim_ctex :
    add (add [] 0 0) 5 6 = [(0, {0}), (5, {6})] ∧
      (resolve [(0, ({0} : Finset Nat)), (5, {6})] 0).1 = ∅ ∧
      all_dependencies_resolved
        ((resolve [(0, ({0} : Finset Nat)), (5, {6})] 0).2) = false := by
  decide

/-- C3 (amended): `all_dependencies_resolved` is true exactly when the
adjacency structure has no keys; it is true on a fresh tracker, false
immediately after any `add`, and whenever it is true no registered
dependency remains tracked (its entry has been removed, by resolving it or
by resolutions of its dependants emptying its dependant-set). -/
theorem all_resolved_spec :
    (all_dependencies_resolved [] = true) ∧
      (∀ tracker d t, all_dependencies_resolved (add tracker d t) = false) ∧
      (∀ tracker : Tracker, all_dependencies_resolved tracker = true ↔ tracker = []) ∧
      (∀ ops d, all_dependencies_resolved (run ops) = true →
        d ∈ registeredDeps ops → d ∉ ((run ops).map Prod.fst)) := by
  have hiff : ∀ tracker : Tracker,
      all_dependencies_resolved tracker = true ↔ tracker = [] := by
    intro tracker
    rw [all_dependencies_resolved, List.isEmpty_iff]
  refine ⟨rfl, ?_, hiff, ?_⟩
  · intro tracker d t
    cases hres : all_dependencies_resolved (add tracker d t) with
    | false => rfl
    | true => exact absurd ((hiff _).mp hres) (add_ne_nil tracker d t)
  · intro ops d hres _
    rw [(hiff _).mp hres]
    simp

/-- Witness for C3 at the trace add(0,1); resolve(0). -/
theorem all_resolved_spec_witness :
    all_dependencies_resolved (run [Op.add 0 1, Op.resolve 0]) = true ∧
      0 ∈ registeredDeps [Op.add 0 1, Op.resolve 0] ∧
      0 ∉ ((run [Op.add 0 1, Op.resolve 0]).map Prod.fst) :=
  ⟨by decide, by decide,
    all_resolved_spec.2.2.2 [Op.add 0 1, Op.resolve 0] 0 (by decide) (by decide)⟩

/-- Counterexample to C3 as stated: after the trace add(0,1); resolve(1)
(resolving the dependant out of order empties and drops key 0), the tracker
reports fully resolved although the registered dependency 0 was never passed
to a resolve call. -/
theorem all_resolved_claim_ctex :
    all_dependencies_resolved (run [Op.add 0 1, Op.resolve 1]) = true ∧
      0 ∈ registeredDeps [Op.add 0 1, Op.resolve 1] ∧
      0 ∉ resolvedIds [Op.add 0 1, Op.resolve 1] := by
  decide

/-- C9: for a well-formed tracker, `get_dependants n` is exactly the set of
nodes recorded as depending on `n`, `get_dependencies n` exactly the set of
nodes `n` is recorded as depending on, and both are empty for unknown
nodes (they are total functions, so they never fail). -/
theorem query_helpers_spec (tracker : Tracker) (node : Nat) (h : goodKeys tracker) :
    (∀ t, t ∈ get_dependants tracker node ↔ edgeMem tracker node t) ∧
      (∀ m, m ∈ get_dependencies tracker node ↔ edgeMem tracker m node) ∧
      (node ∉ tracker.map Prod.fst → get_dependants tracker node = ∅) ∧
      ((∀ p ∈ tracker, node ∉ p.2) → get_dependencies tracker node = ∅) := by
  refine ⟨?_, ?_, ?_, ?_⟩
  · intro t
    constructor
    · intro hmem
      rw [get_dependants, depsOf] at hmem
      cases hl : tracker.lookup node with
      | none => rw [hl] at hmem; simp at hmem
      | some s =>
        rw [hl] at hmem
        simp only [Option.getD_some] at hmem
        exact ⟨s, mem_of_lookup_eq_some hl, hmem⟩
    · rintro ⟨s, hs, hts⟩
      rw [get_dependants, depsOf, lookup_eq_some_of_mem h hs]
      exact hts
  · intro m
    rw [get_dependencies]
    constructor
    · intro hmem
      rw [List.mem_toFinset] at hmem
      obtain ⟨p, hp, hpm⟩ := List.mem_map.mp hmem
      obtain ⟨hpt, hpin⟩ := List.mem_filter.mp hp
      refine ⟨p.2, ?_, by simpa using hpin⟩
      rw [← hpm]
      exact hpt
    · rintro ⟨s, hs, hns⟩
      rw [List.mem_toFinset]
      refine List.mem_map.mpr ⟨(m, s), List.mem_filter.mpr ⟨hs, by simpa using hns⟩, rfl⟩
  · intro hnk
    have : tracker.lookup node = none := by
      refine lookup_eq_none_of_not_key fun p hp hpd => hnk ?_
      exact List.mem_map.mpr ⟨p, hp, hpd⟩
    rw [get_dependants, depsOf, this]
    rfl
  · intro hall
    rw [get_dependencies, List.filter_eq_nil_iff.mpr fun p hp => by simpa using hall p hp]
    rfl

/-- Witness for C9 on the doctest tracker `[(0, {1, 2})]`. -/
theorem query_helpers_spec_witness :
    goodKeys [(0, ({1, 2} : Finset Nat))] ∧
      (1 ∈ get_dependants [(0, ({1, 2} : Finset Nat))] 0 ↔
        edgeMem [(0, ({1, 2} : Finset Nat))] 0 1) ∧
      (0 ∈ get_dependencies [(0, ({1, 2} : Finset Nat))] 1 ↔
        edgeMem [(0, ({1, 2} : Finset Nat))] 0 1) ∧
      get_dependants [(0, ({1, 2} : Finset Nat))] 3 = ∅ :=
  ⟨by decide,
    (query_helpers_spec [(0, {1, 2})] 0 (by decide)).1 1,
    (query_helpers_spec [(0, {1, 2})] 1 (by decide)).2.1 0,
    (query_helpers_spec [(0, {1, 2})] 3 (by decide)).2.2.1 (by decide)⟩

/-- C5 (amended): in any trace that never calls `resolve` on `t` itself, `t`
is freed by a `resolve d` call only if every dependency `d0` registered for
`t` by an earlier `add(d0, t)` has itself been resolved (earlier in the
trace, or is `d` itself, the resolving call). -/
theorem freed_only_after_deps_resolved (pre : List Op) (d t d0 : Nat)
    (hnt : Op.resolve t ∉ pre) (hfreed : t ∈ (resolve (run pre) d).1)
    (hadd : Op.add d0 t ∈ pre) :
    Op.resolve d0 ∈ pre ∨ d0 = d := by
  by_cases hres : Op.resolve d0 ∈ pre
  · exact Or.inl hres
  · right
    obtain ⟨s, hs, hts⟩ :=
      runFrom_keeps_entry pre [] d0 t (Or.inr hadd) hres hnt
    exact freed_not_elsewhere hfreed hs hts

/-- Witness for C5: in the one-edge trace add(0,1), node 1 is freed by
resolve(0) and its only registered dependency is 0, the resolving call. -/
theorem freed_only_after_deps_resolved_witness :
    Op.resolve 1 ∉ [Op.add 0 1] ∧
      1 ∈ (resolve (run [Op.add 0 1]) 0).1 ∧
      Op.add 0 1 ∈ [Op.add 0 1] ∧
      (Op.resolve 0 ∈ [Op.add 0 1] ∨ 0 = 0) :=
  ⟨by decide, by decide, by decide,
    freed_only_after_deps_resolved [Op.add 0 1] 0 1 0 (by decide) (by decide)
      (by decide)⟩

/-- Counterexample to C5 as stated: in the trace add(0,1); resolve(1);
add(2,1), the out-of-order resolve(1) purges node 1 from the set of its
unresolved dependency 0 (dropping that entry), after which resolve(2) frees
node 1 even though its registered dependency 0 was never resolved. -/
theorem freed_claim_ctex :
    Op.resolve 0 ∉ [Op.add 0 1, Op.resolve 1, Op.add 2 1] ∧
      1 ∈ (resolve (run [Op.add 0 1, Op.resolve 1, Op.add 2 1]) 2).1 ∧
      Op.add 0 1 ∈ [Op.add 0 1, Op.resolve 1, Op.add 2 1] ∧
      (0 : Nat) ≠ 2 := by
  decide

/-- C8: for two unrelated dependencies (neither registered as a dependant of
the other), resolving them in either order yields the same union of freed
sets and the same final adjacency structure. -/
theorem resolve_comm (tracker : Tracker) (d1 d2 : Nat) (h : goodKeys tracker)
    (hu1 : ∀ s, (d1, s) ∈ tracker → d2 ∉ s)
    (hu2 : ∀ s, (d2, s) ∈ tracker → d1 ∉ s) :
    (resolve tracker d1).1 ∪ (resolve ((resolve tracker d1).2) d2).1 =
        (resolve tracker d2).1 ∪ (resolve ((resolve tracker d2).2) d1).1 ∧
      (resolve ((resolve tracker d1).2) d2).2 =
        (resolve ((resolve tracker d2).2) d1).2 := by
  by_cases heq : d1 = d2
  · subst heq
    exact ⟨rfl, rfl⟩
  · have hne : d1 ≠ d2 := heq
    have hne' : d2 ≠ d1 := fun hh => hne hh.symm
    have hper : ∀ p ∈ tracker, (p.1 = d1 → d2 ∉ p.2) ∧ (p.1 = d2 → d1 ∉ p.2) := by
      intro p hp
      constructor
      · intro hk
        refine hu1 p.2 ?_
        have hpe : (d1, p.2) = p := by rw [← hk]
        rw [hpe]
        exact hp
      · intro hk
        refine hu2 p.2 ?_
        have hpe : (d2, p.2) = p := by rw [← hk]
        rw [hpe]
        exact hp
    have hcomm : step (step tracker d1) d2 = step (step tracker d2) d1 :=
      step_comm hne hper
    have hg1 : goodKeys (step tracker d1) := goodKeys_step h d1
    have hg2 : goodKeys (step tracker d2) := goodKeys_step h d2
    have hsnd : (resolve ((resolve tracker d1).2) d2).2 =
        (resolve ((resolve tracker d2).2) d1).2 := by
      simp only [resolve_snd_eq]
      exact hcomm
    refine ⟨?_, hsnd⟩
    have hf1 : (resolve tracker d1).1 =
        ((depsOf tracker d1).erase d1).filter
          (fun t => inSetsB (step tracker d1) t = false) := by
      rw [resolve_fst_char h]
      simp only [resolve_snd_eq]
    have hf1' : (resolve tracker d2).1 =
        ((depsOf tracker d2).erase d2).filter
          (fun t => inSetsB (step tracker d2) t = false) := by
      rw [resolve_fst_char h]
      simp only [resolve_snd_eq]
    have hf2 : (resolve ((resolve tracker d1).2) d2).1 =
        ((depsOf tracker d2).erase d2).filter
          (fun t => inSetsB (step (step tracker d1) d2) t = false) := by
      have hgx : goodKeys ((resolve tracker d1).2) := by
        rw [resolve_snd_eq]
        exact hg1
      rw [resolve_fst_char hgx]
      simp only [resolve_snd_eq]
      rw [depsOf_step h hne hu2]
    have hf2' : (resolve ((resolve tracker d2).2) d1).1 =
        ((depsOf tracker d1).erase d1).filter
          (fun t => inSetsB (step (step tracker d1) d2) t = false) := by
      have hgx : goodKeys ((resolve tracker d2).2) := by
        rw [resolve_snd_eq]
        exact hg2
      rw [resolve_fst_char hgx]
      simp only [resolve_snd_eq]
      rw [depsOf_step h hne' hu1, hcomm]
    rw [hf1, hf1', hf2, hf2']
    ext t
    simp only [Finset.mem_union, Finset.mem_filter]
    have htdA : t ∈ (depsOf tracker d1).erase d1 → t ≠ d2 := by
      intro hta he
      subst he
      have ht1 : t ∈ depsOf tracker d1 := Finset.mem_of_mem_erase hta
      rw [depsOf] at ht1
      cases hl : tracker.lookup d1 with
      | none => rw [hl] at ht1; simp at ht1
      | some s =>
        rw [hl] at ht1
        simp only [Option.getD_some] at ht1
        exact hu1 s (mem_of_lookup_eq_some hl) ht1
    have htdB : t ∈ (depsOf tracker d2).erase d2 → t ≠ d1 := by
      intro htb he
      subst he
      have ht2 : t ∈ depsOf tracker d2 := Finset.mem_of_mem_erase htb
      rw [depsOf] at ht2
      cases hl : tracker.lookup d2 with
      | none => rw [hl] at ht2; simp at ht2
      | some s =>
        rw [hl] at ht2
        simp only [Option.getD_some] at ht2
        exact hu2 s (mem_of_lookup_eq_some hl) ht2
    have hmonoL : inSetsB (step tracker d1) t = false →
        inSetsB (step (step tracker d1) d2) t = false := by
      intro h1
      cases hf : inSetsB (step (step tracker d1) d2) t with
      | false => rfl
      | true =>
        have := inSetsB_step_mono hf
        rw [this] at h1
        cases h1
    have hmonoR : inSetsB (step tracker d2) t = false →
        inSetsB (step (step tracker d1) d2) t = false := by
      intro h1
      cases hf : inSetsB (step (step tracker d1) d2) t with
      | false => rfl
      | true =>
        rw [hcomm] at hf
        have := inSetsB_step_mono hf
        rw [this] at h1
        cases h1
    have hlocL : t ∈ (depsOf tracker d1).erase d1 →
        inSetsB (step (step tracker d1) d2) t = false →
        inSetsB (step tracker d1) t = true →
        t ∈ (depsOf tracker d2).erase d2 := by
      intro hta hf h1
      obtain ⟨p, hp, hpt⟩ := inSetsB_iff.mp h1
      have htd2 : t ≠ d2 := htdA hta
      have hp1 : p.1 = d2 := by
        by_contra hp1
        have : inSetsB (step (step tracker d1) d2) t = true :=
          inSetsB_step_iff.mpr ⟨htd2, p, hp, hp1, hpt⟩
        rw [this] at hf
        cases hf
      have hmem : (d2, p.2) ∈ step tracker d1 := by
        have hpe : (d2, p.2) = p := by rw [← hp1]
        rw [hpe]
        exact hp
      have htd : t ∈ depsOf (step tracker d1) d2 := by
        rw [depsOf, lookup_eq_some_of_mem hg1 hmem]
        exact hpt
      rw [depsOf_step h hne hu2] at htd
      exact Finset.mem_erase.mpr ⟨htd2, htd⟩
    have hlocR : t ∈ (depsOf tracker d2).erase d2 →
        inSetsB (step (step tracker d1) d2) t = false →
        inSetsB (step tracker d2) t = true →
        t ∈ (depsOf tracker d1).erase d1 := by
      intro htb hf h1
      obtain ⟨p, hp, hpt⟩ := inSetsB_iff.mp h1
      have htd1 : t ≠ d1 := htdB htb
      rw [hcomm] at hf
      have hp1 : p.1 = d1 := by
        by_contra hp1
        have : inSetsB (step (step tracker d2) d1) t = true :=
          inSetsB_step_iff.mpr ⟨htd1, p, hp, hp1, hpt⟩
        rw [this] at hf
        cases hf
      have hmem : (d1, p.2) ∈ step tracker d2 := by
        have hpe : (d1, p.2) = p := by rw [← hp1]
        rw [hpe]
        exact hp
      have htd : t ∈ depsOf (step tracker d2) d1 := by
        rw [depsOf, lookup_eq_some_of_mem hg2 hmem]
        exact hpt
      rw [depsOf_step h hne' hu1] at htd
      exact Finset.mem_erase.mpr ⟨htd1, htd⟩
    rw [freed_union_char hmonoL hlocL, freed_union_char hmonoR hlocR, or_comm]

/-- Witness for C8 on the shared-dependant tracker `[(1, {3}), (2, {3})]`. -/
theorem resolve_comm_witness :
    (resolve [(1, ({3} : Finset Nat)), (2, {3})] 1).1 ∪
        (resolve ((resolve [(1, ({3} : Finset Nat)), (2, {3})] 1).2) 2).1 =
      (resolve [(1, ({3} : Finset Nat)), (2, {3})] 2).1 ∪
        (resolve ((resolve [(1, ({3} : Finset Nat)), (2, {3})] 2).2) 1).1 ∧
      (resolve ((resolve [(1, ({3} : Finset Nat)), (2, {3})] 1).2) 2).2 =
        (resolve ((resolve [(1, ({3} : Finset Nat)), (2, {3})] 2).2) 1).2 :=
  resolve_comm [(1, {3}), (2, {3})] 1 2 (by decide)
    (by intro s hs; simp at hs; subst hs; decide)
    (by intro s hs; simp at hs; subst hs; decide)

/-- C4: for every sequence of `add` calls whose edge set is a DAG,
`check_circular_dependencies` returns normally; for every sequence whose
edge set contains a cycle, it fails with a CircularDependencyError naming a
node that lies on a cycle (the node at which the traversal detected it). -/
theorem check_cycles_spec (ps : List (Nat × Nat)) :
    ((∀ n, ¬ Relation.TransGen (fun a b => (a, b) ∈ ps) n n) →
      ∃ proc, check_circular_dependencies (addAll ps) = some (Except.ok proc)) ∧
    ((∃ n, Relation.TransGen (fun a b => (a, b) ∈ ps) n n) →
      ∃ e, check_circular_dependencies (addAll ps) = some (Except.error e) ∧
        Relation.TransGen (fun a b => (a, b) ∈ ps) e e) := by
  have hrel := edge_rel_eq ps
  have hS : ∀ a b, b ∈ neighList (addAll ps) a → b ∈ nodesOf (addAll ps) :=
    neighList_sub_nodes (addAll ps)
  have hkeys : ∀ m ∈ (addAll ps).map Prod.fst, m ∈ nodesOf (addAll ps) := by
    intro m hm
    rw [nodesOf]
    exact List.mem_append_left _ hm
  have htot : visitAux (neighList (addAll ps)) ((nodesOf (addAll ps)).length + 1)
      [] [] ((addAll ps).map Prod.fst) ≠ none := by
    refine visitAux_ne_none hS ((nodesOf (addAll ps)).length + 1)
      ((addAll ps).map Prod.fst) [] [] hkeys List.nodup_nil ?_ ?_
    · intro x hx
      exact absurd hx (List.not_mem_nil x)
    · simp
  have hcheck : check_circular_dependencies (addAll ps) =
      visitAux (neighList (addAll ps)) ((nodesOf (addAll ps)).length + 1)
        [] [] ((addAll ps).map Prod.fst) := rfl
  constructor
  · intro hdag
    have hdagN : ∀ n, ¬ Relation.TransGen
        (fun a c => c ∈ neighList (addAll ps) a) n n := by
      intro n hcyc
      refine hdag n ?_
      rw [hrel]
      exact hcyc
    cases hres : check_circular_dependencies (addAll ps) with
    | none =>
      rw [hcheck] at hres
      exact absurd hres htot
    | some r =>
      cases r with
      | error e =>
        exfalso
        rw [hcheck] at hres
        refine hdagN e (visitAux_error_cycle ((nodesOf (addAll ps)).length + 1)
          ((addAll ps).map Prod.fst) [] [] e ?_ hres)
        intro m _ q hq
        exact absurd hq (List.not_mem_nil q)
      | ok proc => exact ⟨proc, rfl⟩
  · rintro ⟨n, hcyc⟩
    have hcycN : Relation.TransGen (fun a c => c ∈ neighList (addAll ps) a) n n := by
      rw [← hrel]
      exact hcyc
    have hnkey : n ∈ (addAll ps).map Prod.fst := by
      obtain ⟨b, hb, _⟩ := Relation.TransGen.head'_iff.mp hcycN
      exact key_of_neigh hb
    cases hres : check_circular_dependencies (addAll ps) with
    | none =>
      rw [hcheck] at hres
      exact absurd hres htot
    | some r =>
      cases r with
      | ok proc =>
        exfalso
        rw [hcheck] at hres
        obtain ⟨_, _, c3, c4, _⟩ := visitAux_ok_spec
          ((nodesOf (addAll ps)).length + 1) ((addAll ps).map Prod.fst) [] [] proc
          hres (by intro x hx; exact absurd hx (List.not_mem_nil x))
          (by intro x hx; exact absurd hx (List.not_mem_nil x))
          (by intro x hx; exact absurd hx (List.not_mem_nil x))
        exact c3 n (c4 n hnkey) hcycN
      | error e =>
        refine ⟨e, rfl, ?_⟩
        rw [hcheck] at hres
        have hcye := visitAux_error_cycle ((nodesOf (addAll ps)).length + 1)
          ((addAll ps).map Prod.fst) [] [] e
          (fun m _ q hq => absurd hq (List.not_mem_nil q)) hres
        rw [hrel]
        exact hcye

/-- Witness for C4: the single edge 0 → 1 passes the check; the pair of
edges 0 → 1, 1 → 0 fails with an error naming a node on the cycle. -/
theorem check_cycles_spec_witness :
    (∃ proc, check_circular_dependencies (addAll [(0, 1)]) =
        some (Except.ok proc)) ∧
      (∃ e, check_circular_dependencies (addAll [(0, 1), (1, 0)]) =
          some (Except.error e) ∧
        Relation.TransGen (fun a b => (a, b) ∈ [(0, 1), (1, 0)]) e e) := by
  constructor
  · refine (check_cycles_spec [(0, 1)]).1 ?_
    intro n hcyc
    obtain ⟨b, hab, hreach⟩ := Relation.TransGen.head'_iff.mp hcyc
    have hab' : n = 0 ∧ b = 1 := by simpa [Prod.ext_iff] using hab
    obtain ⟨rfl, rfl⟩ := hab'
    rcases Relation.ReflTransGen.cases_head hreach with he | ⟨c, hc, _⟩
    · exact absurd he (by decide)
    · simp at hc
  · refine (check_cycles_spec [(0, 1), (1, 0)]).2 ⟨0, ?_⟩
    exact Relation.TransGen.head
      (show ((0 : Nat), (1 : Nat)) ∈ [(0, 1), (1, 0)] by simp)
      (Relation.TransGen.single (show ((1 : Nat), (0 : Nat)) ∈ [(0, 1), (1, 0)] by simp))

end DependencyTracker
